import Mathlib

/-!
Verification development for the `fdup` duplicate-file finder.

The program (package `main`, v1.0.2) normalizes its root directory
arguments, walks each surviving root, hashes eligible files with SHA-256,
and maintains a map from digest to the list of paths sharing that digest.
In deletion mode it removes every duplicate after the first, optionally
restricted to files under the last root given on the command line.

This file is a shallow embedding of that code:

* Canonical absolute paths (outputs of `realpath.Realpath`) are modeled as
  their list of name components (`Path := List String`); `filepath.Rel`
  on two such paths is modeled by `relComponents`.
* The root-pruning loop of `main`, the extension normalization loop of
  `main`, `isFileNameAcceptable`, `walker`, and the post-hash portion of
  `processFile` are translated function by function.
* The filesystem walk primitive (`filepath.Walk`) is external to the
  program; its documented contract (pre-order traversal, `SkipDir`
  pruning, nil `FileInfo` on lstat errors) drives `walkForest` and
  `walkerEntry`.
* I/O outcomes the program merely observes are oracle fields: an `Ev`
  records a successfully hashed file (digest, path, byte count) together
  with whether `os.Remove` would succeed on it; the ghost `attempts`
  field of `FState` records every `os.Remove` invocation.
* The Go `int32`/`int64` counters are modeled as unbounded naturals; the
  claims under study concern their increment logic, not overflow.
-/

namespace Fdup

/-- A canonical absolute path, as its list of name components.
`realpath.Realpath` output contains no `.` or `..` components and no
trailing separator, so the component list determines the string form. -/
abbrev Path := List String

/-- Models `strings.HasPrefix s "."` on a name component. -/
def startsDot (s : String) : Bool :=
  match s.data with
  | '.' :: _ => true
  | _ => false

/-- Models `strings.HasPrefix s ".."` on a name component. -/
def startsDotDot (s : String) : Bool :=
  match s.data with
  | '.' :: '.' :: _ => true
  | _ => false

/-- Models `strings.ToLower` (ASCII range; the inputs exercised here are
ASCII, where Go's Unicode lowering agrees). -/
def lowerStr (s : String) : String :=
  ⟨s.data.map Char.toLower⟩

/-- Models `strings.HasSuffix s suffix`. -/
def hasSuffix (s suffix : String) : Bool :=
  suffix.data.isSuffixOf s.data

/-- Models `filepath.Rel base targ` on two canonical absolute paths: strip
the longest common leading run of components, then one `..` per remaining
base component followed by the remaining target components.  The empty
result stands for `"."`. -/
def relComponents : Path → Path → List String
  | [], targ => targ
  | _ :: bs, [] => List.replicate (bs.length + 1) ".."
  | b :: bs, t :: ts =>
      if b = t then relComponents bs ts
      else List.replicate (bs.length + 1) ".." ++ (t :: ts)

/-- Models `strings.HasPrefix(rel(base, targ), "..")` from `main.rel`:
the joined string starts with `..` exactly when the first component does. -/
def relHasDotDot (base targ : Path) : Bool :=
  match relComponents base targ with
  | [] => false
  | c :: _ => startsDotDot c

/-- True when no component of the path begins with `..` (so the
`relHasDotDot` test coincides with component-wise ancestry). -/
def cleanPath (p : Path) : Bool :=
  p.all fun c => !startsDotDot c

/-- The inner pruning loop of `main` (src lines 80-91): scan the accepted
set; when exactly one of the two `rel` tests reports `..`, either delete
the scanned root (the new path is broader) or stop and refuse to add the
new path (an accepted root is broader).  Go map iteration order is
unspecified; the model iterates in insertion order. -/
def pruneLoop (actual : Path) : List Path → List Path × Bool
  | [] => ([], true)
  | r :: rest =>
      if (relHasDotDot r actual ≠ relHasDotDot actual r) then
        if relHasDotDot r actual then pruneLoop actual rest
        else (r :: rest, false)
      else
        let res := pruneLoop actual rest
        (r :: res.1, res.2)

/-- One iteration of the root-collection loop of `main` (src lines 73-98),
for an already-canonicalized path: skip known paths, otherwise prune and
possibly append.  The insertion-order list models the `set`+`order` pair
(the final traversal sorts by `order`, which is insertion order). -/
def addRoot (set : List Path) (actual : Path) : List Path :=
  if actual ∈ set then set
  else
    let res := pruneLoop actual set
    if res.2 then res.1 ++ [actual] else res.1

/-- The whole root-collection loop: surviving roots in traversal order,
plus `removeOnlyFromLastRoot`, which is unconditionally reassigned to the
canonical form of every argument in turn (src line 97). -/
def normalizeState (paths : List Path) : List Path × Option Path :=
  paths.foldl (fun acc p => (addRoot acc.1 p, some p)) ([], none)

/-- The surviving normalized roots, in traversal order. -/
def normalizeRoots (paths : List Path) : List Path :=
  (normalizeState paths).1

/-- The extension normalization loop of `main` (src lines 111-124):
lower-case unless case-sensitive, prepend `.` when missing, drop entries
that normalize to a bare `.` (this includes empty entries). -/
def normalizeExtensions (caseSensitive : Bool) (extensions : List String) : List String :=
  extensions.foldl
    (fun acc one =>
      let one := if caseSensitive then one else lowerStr one
      let one := if startsDot one then one else "." ++ one
      if one = "." then acc else acc ++ [one])
    []

/-- `isFileNameAcceptable` (src lines 276-289). -/
def isFileNameAcceptable (extensions : List String) (caseSensitive : Bool) (name : String) : Bool :=
  if extensions.isEmpty then true
  else
    let name := if caseSensitive then name else lowerStr name
    extensions.any fun ext => hasSuffix name ext

/-- What one `walker` call (src lines 259-274) asks of the traversal:
prune the directory, submit the file for hashing, or just continue. -/
inductive WalkAction where
  | prune
  | process
  | next
deriving DecidableEq

/-- The decision logic of `walker` (src lines 259-274) given the entry's
base name and directory flag: hidden entries are pruned (directory) or
skipped (file) unless `-H` was given; otherwise acceptable files are
submitted for hashing. -/
def walkerAct (hidden : Bool) (extensions : List String) (caseSensitive : Bool)
    (name : String) (isDir : Bool) : WalkAction :=
  if !hidden && startsDot name then
    if isDir then .prune else .next
  else if !isDir && isFileNameAcceptable extensions caseSensitive name then .process
  else .next

/-- A directory forest as enumerated by the external walk primitive:
a list of siblings, each a file or a directory with its own forest. -/
inductive Forest where
  | nil : Forest
  | file (name : String) (rest : Forest) : Forest
  | dir (name : String) (children : Forest) (rest : Forest) : Forest
deriving DecidableEq

/-- The paths (component lists, from the walked node down) submitted for
hashing when `filepath.Walk` drives `walker` over a forest: pre-order, a
`prune` answer on a directory suppresses the whole subtree. -/
def walkForest (hidden : Bool) (extensions : List String) (caseSensitive : Bool) :
    Forest → List Path
  | .nil => []
  | .file n rest =>
      (if walkerAct hidden extensions caseSensitive n false = .process then [[n]] else [])
        ++ walkForest hidden extensions caseSensitive rest
  | .dir n children rest =>
      (if walkerAct hidden extensions caseSensitive n true = .prune then []
       else (walkForest hidden extensions caseSensitive children).map fun p => n :: p)
        ++ walkForest hidden extensions caseSensitive rest

/-- What `filepath.Walk` hands to its callback for one entry. -/
structure FileInfo where
  name : String
  isDir : Bool

/-- A full `walker` invocation (src line 259).  Per the documented
`filepath.WalkFunc` contract, `info` is nil when the entry's `os.Lstat`
failed; `walker` dereferences `info` unconditionally on line 261
(`name := info.Name()`), so a nil `info` is a runtime panic, modeled as
`none`.  With a valid `info` the call always returns normally. -/
def walkerEntry (hidden : Bool) (extensions : List String) (caseSensitive : Bool)
    (info : Option FileInfo) : Option WalkAction :=
  info.map fun i => walkerAct hidden extensions caseSensitive i.name i.isDir

/-- The per-root walk loop of `main` (src lines 136-141): roots are
traversed in order; the first root whose `filepath.Walk` call returns an
error is printed and the process exits with status 1.  The input models
each root's walk outcome; the output is the fatal error, if any. -/
def mainWalkLoop : List (Option String) → Option String
  | [] => none
  | r :: rest =>
      match r with
      | some e => some e
      | none => mainWalkLoop rest

/-- One successfully hashed file as seen by the post-hash part of
`processFile` (src lines 305-342): its digest, its path, its byte count,
and an oracle for whether `os.Remove` on it would succeed. -/
structure Ev where
  digest : Nat
  path : Path
  size : Nat
  removeOk : Bool
deriving DecidableEq

/-- The program's shared mutable state: the digest-to-paths map, the
counters touched by `processFile`, the two outcome lists, and a ghost
trace `attempts` recording every `os.Remove` invocation in order. -/
structure FState where
  hashes : List (Nat × List Path)
  filesProcessed : Nat
  bytesProcessed : Nat
  duplicatesFound : Nat
  duplicateBytes : Nat
  removed : List Path
  unableToRemove : List Path
  attempts : List Path
deriving DecidableEq

/-- Go map lookup `hashes[sum]` on the association-list model (keys are
kept unique by `setH`). -/
def lookupH : List (Nat × List Path) → Nat → Option (List Path)
  | [], _ => none
  | (k, v) :: rest, d => if k = d then some v else lookupH rest d

/-- Go map assignment `hashes[sum] = v`. -/
def setH : List (Nat × List Path) → Nat → List Path → List (Nat × List Path)
  | [], d, v => [(d, v)]
  | (k, w) :: rest, d, v => if k = d then (d, v) :: rest else (k, w) :: setH rest d v

/-- The locked index update of `processFile` (src lines 311-325).
Returns the updated state together with the `exists` test result (was the
digest already seen) and the `needRemove` flag. -/
def recordStep (remove : Bool) (st : FState) (e : Ev) : FState × Bool × Bool :=
  match lookupH st.hashes e.digest with
  | some paths =>
      let st := { st with
        duplicatesFound := st.duplicatesFound + 1
        duplicateBytes := st.duplicateBytes + e.size }
      if remove then (st, true, true)
      else ({ st with hashes := setH st.hashes e.digest (paths ++ [e.path]) }, true, false)
  | none =>
      ({ st with hashes := setH st.hashes e.digest [e.path] }, false, false)

/-- The removal section of `processFile` (src lines 327-341): skip when
restricted to the last root and the path's `rel` from that root starts
with `..`; otherwise call `os.Remove` (traced in `attempts`) and record
the outcome. -/
def removalStep (removeOnlyFromLast : Bool) (removeOnlyFromLastRoot : Path)
    (st : FState) (e : Ev) : FState :=
  if removeOnlyFromLast && relHasDotDot removeOnlyFromLastRoot e.path then st
  else
    let st := { st with attempts := st.attempts ++ [e.path] }
    if e.removeOk then { st with removed := st.removed ++ [e.path] }
    else { st with unableToRemove := st.unableToRemove ++ [e.path] }

/-- `processFile` after a successful hash (src lines 305-342): bump the
progress counters, run the locked index update, then the removal section
when `needRemove` was set.  (The open/read failure paths, lines 293-304,
return before touching any of this state.) -/
def processFile (remove removeOnlyFromLast : Bool) (removeOnlyFromLastRoot : Path)
    (st : FState) (e : Ev) : FState :=
  let st := { st with
    filesProcessed := st.filesProcessed + 1
    bytesProcessed := st.bytesProcessed + e.size }
  let res := recordStep remove st e
  if res.2.2 then removalStep removeOnlyFromLast removeOnlyFromLastRoot res.1 e else res.1

/-- The state at program start. -/
def initState : FState :=
  ⟨[], 0, 0, 0, 0, [], [], []⟩

/-- A whole run of the engine over the hash-completion sequence `events`
(the serialized order in which completions acquire the index lock). -/
def runDedup (remove removeOnlyFromLast : Bool) (removeOnlyFromLastRoot : Path)
    (events : List Ev) : FState :=
  events.foldl (processFile remove removeOnlyFromLast removeOnlyFromLastRoot) initState

/-- The events of a run that find their digest already recorded, given
the digests in `seen` are recorded at the start. -/
def dupEvents (seen : List Nat) : List Ev → List Ev
  | [] => []
  | e :: rest =>
      if e.digest ∈ seen then e :: dupEvents seen rest
      else dupEvents (e.digest :: seen) rest

/-- The events of a run that are the first appearance of their digest,
given the digests in `seen` are recorded at the start. -/
def firstEvents (seen : List Nat) : List Ev → List Ev
  | [] => []
  | e :: rest =>
      if e.digest ∈ seen then firstEvents seen rest
      else e :: firstEvents (e.digest :: seen) rest

/-- Whether the removal section records an outcome for this event (true
unless the last-root restriction skips it, src line 329). -/
def recordedB (removeOnlyFromLast : Bool) (removeOnlyFromLastRoot : Path) (e : Ev) : Bool :=
  !(removeOnlyFromLast && relHasDotDot removeOnlyFromLastRoot e.path)

/-! ### Helper lemmas -/

theorem normalizeExtensions_foldl (cs : Bool) (exts : List String) :
    ∀ acc : List String,
      exts.foldl
        (fun acc one =>
          let one := if cs then one else lowerStr one
          let one := if startsDot one then one else "." ++ one
          if one = "." then acc else acc ++ [one])
        acc =
      acc ++ (exts.map fun one =>
        let one := if cs then one else lowerStr one
        if startsDot one then one else "." ++ one).filter (fun one => one != ".") := by
  induction exts with
  | nil => intro acc; simp
  | cons x rest ih =>
      intro acc
      simp only [List.foldl_cons, List.map_cons, List.filter_cons, ih]
      by_cases h :
          (if startsDot (if cs then x else lowerStr x) then (if cs then x else lowerStr x)
            else "." ++ (if cs then x else lowerStr x)) = "." <;>
        simp [h]

theorem walkForest_no_hidden (exts : List String) (cs : Bool) :
    ∀ (f : Forest) (p : Path), p ∈ walkForest false exts cs f → ∀ c ∈ p, startsDot c = false := by
  intro f
  induction f with
  | nil => simp [walkForest]
  | file n rest ih =>
      intro p hp c hc
      simp only [walkForest, List.mem_append] at hp
      rcases hp with h | h
      · by_cases hn : startsDot n = true
        · have hw : walkerAct false exts cs n false = .next := by
            simp [walkerAct, hn]
          simp [hw] at h
        · by_cases hacc : walkerAct false exts cs n false = .process
          · simp only [if_pos hacc, List.mem_singleton] at h
            subst h
            rcases List.mem_singleton.1 hc with rfl
            exact Bool.eq_false_iff.2 hn
          · simp [hacc] at h
      · exact ih p h c hc
  | dir n children rest ihc ihr =>
      intro p hp c hc
      simp only [walkForest, List.mem_append] at hp
      rcases hp with h | h
      · by_cases hn : startsDot n = true
        · have hw : walkerAct false exts cs n true = .prune := by
            simp [walkerAct, hn]
          simp [hw] at h
        · have hw : ¬ walkerAct false exts cs n true = .prune := by
            simp [walkerAct, Bool.eq_false_iff.2 hn, isFileNameAcceptable]
          simp only [if_neg hw, List.mem_map] at h
          obtain ⟨q, hq, rfl⟩ := h
          rcases List.mem_cons.1 hc with rfl | hcq
          · exact Bool.eq_false_iff.2 hn
          · exact ihc q hq c hcq
      · exact ihr p h c hc

theorem normalizeFold_snd (paths : List Path) :
    ∀ st : List Path × Option Path,
      (paths.foldl (fun acc p => (addRoot acc.1 p, some p)) st).2 =
        paths.getLast?.or st.2 := by
  induction paths with
  | nil => intro st; rfl
  | cons p rest ih =>
      intro st
      simp only [List.foldl_cons, ih]
      cases rest with
      | nil => rfl
      | cons q r =>
          rw [List.getLast?_cons_cons]
          rcases List.getLast?_isSome.2 (List.cons_ne_nil q r) |> Option.isSome_iff_exists.1
            with ⟨x, hx⟩
          simp [hx]

theorem lookupH_setH (m : List (Nat × List Path)) (d : Nat) (v : List Path) (d' : Nat) :
    lookupH (setH m d v) d' = if d' = d then some v else lookupH m d' := by
  induction m with
  | nil =>
      show (if d = d' then some v else none) = if d' = d then some v else none
      by_cases h : d = d'
      · subst h; simp
      · rw [if_neg h, if_neg (Ne.symm h)]
  | cons kv rest ih =>
      obtain ⟨k, w⟩ := kv
      simp only [setH]
      by_cases hk : k = d
      · subst hk
        rw [if_pos rfl]
        show (if k = d' then some v else lookupH rest d') =
          if d' = k then some v else if k = d' then some w else lookupH rest d'
        by_cases h : k = d'
        · subst h; simp
        · rw [if_neg h, if_neg (Ne.symm h), if_neg h]
      · rw [if_neg hk]
        show (if k = d' then some w else lookupH (setH rest d v) d') =
          if d' = d then some v else if k = d' then some w else lookupH rest d'
        by_cases h : k = d'
        · subst h
          rw [if_pos rfl, if_neg hk, if_pos rfl]
        · rw [if_neg h, ih]
          by_cases h2 : d' = d
          · rw [if_pos h2, if_pos h2]
          · rw [if_neg h2, if_neg h2, if_neg h]

theorem removalStep_hashes (rol : Bool) (lr : Path) (st : FState) (e : Ev) :
    (removalStep rol lr st e).hashes = st.hashes := by
  unfold removalStep
  by_cases h : (rol && relHasDotDot lr e.path) = true
  · simp [h]
  · by_cases h2 : e.removeOk = true <;> simp [h, h2]

theorem processFile_remove_unseen (rol : Bool) (lr : Path) (st : FState) (e : Ev)
    (h : lookupH st.hashes e.digest = none) :
    processFile true rol lr st e = { st with
      filesProcessed := st.filesProcessed + 1
      bytesProcessed := st.bytesProcessed + e.size
      hashes := setH st.hashes e.digest [e.path] } := by
  simp [processFile, recordStep, h]

theorem processFile_remove_seen (rol : Bool) (lr : Path) (st : FState) (e : Ev)
    (g : List Path) (h : lookupH st.hashes e.digest = some g) :
    processFile true rol lr st e = removalStep rol lr { st with
      filesProcessed := st.filesProcessed + 1
      bytesProcessed := st.bytesProcessed + e.size
      duplicatesFound := st.duplicatesFound + 1
      duplicateBytes := st.duplicateBytes + e.size } e := by
  simp [processFile, recordStep, h]

theorem run_remove_hashes (rol : Bool) (lr : Path) (events : List Ev) :
    ∀ (st : FState) (d : Nat),
      lookupH ((events.foldl (processFile true rol lr) st)).hashes d =
        match lookupH st.hashes d with
        | some g => some g
        | none => (events.find? (fun e => e.digest == d)).map fun e => [e.path] := by
  induction events with
  | nil =>
      intro st d
      cases h : lookupH st.hashes d <;> simp [h]
  | cons e rest ih =>
      intro st d
      simp only [List.foldl_cons]
      rw [ih]
      cases hd : lookupH st.hashes e.digest with
      | none =>
          rw [processFile_remove_unseen rol lr st e hd]
          by_cases hde : d = e.digest
          · subst hde
            simp [lookupH_setH, hd, List.find?_cons]
          · have hne : (e.digest == d) = false := by
              simp [Ne.symm hde]
            simp [lookupH_setH, if_neg hde, List.find?_cons, hne]
      | some g =>
          rw [processFile_remove_seen rol lr st e g hd, removalStep_hashes]
          by_cases hde : d = e.digest
          · subst hde
            simp [hd, List.find?_cons]
          · have hne : (e.digest == d) = false := by
              simp [Ne.symm hde]
            simp [List.find?_cons, hne]

theorem removalStep_lists (rol : Bool) (lr : Path) (st : FState) (e : Ev) :
    (removalStep rol lr st e).removed =
      st.removed ++ (if recordedB rol lr e && e.removeOk then [e.path] else []) ∧
    (removalStep rol lr st e).unableToRemove =
      st.unableToRemove ++ (if recordedB rol lr e && !e.removeOk then [e.path] else []) ∧
    (removalStep rol lr st e).attempts =
      st.attempts ++ (if recordedB rol lr e then [e.path] else []) := by
  unfold removalStep recordedB
  by_cases h : (rol && relHasDotDot lr e.path) = true
  · simp [h]
  · by_cases h2 : e.removeOk = true <;> simp [h, h2]

theorem run_remove_lists (rol : Bool) (lr : Path) (events : List Ev) :
    ∀ (st : FState) (seen : List Nat),
      (∀ d, (lookupH st.hashes d).isSome = true ↔ d ∈ seen) →
      (events.foldl (processFile true rol lr) st).removed =
          st.removed ++ ((dupEvents seen events).filter
            (fun e => recordedB rol lr e && e.removeOk)).map Ev.path ∧
      (events.foldl (processFile true rol lr) st).unableToRemove =
          st.unableToRemove ++ ((dupEvents seen events).filter
            (fun e => recordedB rol lr e && !e.removeOk)).map Ev.path ∧
      (events.foldl (processFile true rol lr) st).attempts =
          st.attempts ++ ((dupEvents seen events).filter
            (fun e => recordedB rol lr e)).map Ev.path := by
  induction events with
  | nil =>
      intro st seen _
      simp [dupEvents]
  | cons e rest ih =>
      intro st seen hseen
      simp only [List.foldl_cons, dupEvents]
      by_cases hd : e.digest ∈ seen
      · have hsome : (lookupH st.hashes e.digest).isSome = true := (hseen e.digest).2 hd
        obtain ⟨g, hg⟩ := Option.isSome_iff_exists.1 hsome
        rw [processFile_remove_seen rol lr st e g hg]
        set st1 : FState := { st with
          filesProcessed := st.filesProcessed + 1
          bytesProcessed := st.bytesProcessed + e.size
          duplicatesFound := st.duplicatesFound + 1
          duplicateBytes := st.duplicateBytes + e.size } with hst1
        have hlists := removalStep_lists rol lr st1 e
        have hsn : ∀ d, (lookupH (removalStep rol lr st1 e).hashes d).isSome = true ↔ d ∈ seen := by
          intro d
          rw [removalStep_hashes]
          exact hseen d
        obtain ⟨h1, h2, h3⟩ := ih (removalStep rol lr st1 e) seen hsn
        rw [if_pos hd]
        refine ⟨?_, ?_, ?_⟩
        · rw [h1, hlists.1, List.filter_cons]
          by_cases hr : (recordedB rol lr e && e.removeOk) = true <;>
            simp [hr, List.append_assoc]
        · rw [h2, hlists.2.1, List.filter_cons]
          by_cases hr : (recordedB rol lr e && !e.removeOk) = true <;>
            simp [hr, List.append_assoc]
        · rw [h3, hlists.2.2, List.filter_cons]
          by_cases hr : recordedB rol lr e = true <;>
            simp [hr, List.append_assoc]
      · have hnone : lookupH st.hashes e.digest = none := by
          cases hl : lookupH st.hashes e.digest with
          | none => rfl
          | some g =>
              exact absurd ((hseen e.digest).1 (by simp [hl])) hd
        rw [processFile_remove_unseen rol lr st e hnone]
        rw [if_neg hd]
        apply ih
        intro d
        rw [lookupH_setH]
        by_cases hde : d = e.digest
        · subst hde; simp
        · simp only [if_neg hde, List.mem_cons]
          rw [hseen d]
          constructor
          · exact Or.inr
          · rintro (rfl | hmem)
            · exact absurd rfl hde
            · exact hmem

theorem dupEvents_sublist : ∀ (l : List Ev) (seen : List Nat), List.Sublist (dupEvents seen l) l := by
  intro l
  induction l with
  | nil => intro seen; simp [dupEvents]
  | cons e rest ih =>
      intro seen
      simp only [dupEvents]
      by_cases hd : e.digest ∈ seen
      · rw [if_pos hd]
        exact (ih seen).cons₂ e
      · rw [if_neg hd]
        exact (ih (e.digest :: seen)).cons e

theorem firstEvents_sublist : ∀ (l : List Ev) (seen : List Nat), List.Sublist (firstEvents seen l) l := by
  intro l
  induction l with
  | nil => intro seen; simp [firstEvents]
  | cons e rest ih =>
      intro seen
      simp only [firstEvents]
      by_cases hd : e.digest ∈ seen
      · rw [if_pos hd]
        exact (ih seen).cons e
      · rw [if_neg hd]
        exact (ih (e.digest :: seen)).cons₂ e

theorem dup_first_paths_disjoint :
    ∀ (l : List Ev) (seen : List Nat), (l.map Ev.path).Nodup →
      ∀ p, p ∈ (dupEvents seen l).map Ev.path → p ∈ (firstEvents seen l).map Ev.path → False := by
  intro l
  induction l with
  | nil => intro seen _ p h1 _; simp [dupEvents] at h1
  | cons e rest ih =>
      intro seen hnd p h1 h2
      have hnd' : (rest.map Ev.path).Nodup := (List.nodup_cons.1 hnd).2
      have hep : e.path ∉ rest.map Ev.path := (List.nodup_cons.1 hnd).1
      by_cases hd : e.digest ∈ seen
      · simp only [dupEvents, firstEvents, if_pos hd] at h1 h2
        rcases List.mem_map.1 h1 with ⟨e', he', hpe⟩
        rcases List.mem_cons.1 he' with rfl | he''
        · exact hep (hpe ▸ ((firstEvents_sublist rest seen).map Ev.path).mem h2)
        · exact ih seen hnd' p (List.mem_map.2 ⟨e', he'', hpe⟩) h2
      · simp only [dupEvents, firstEvents, if_neg hd] at h1 h2
        rcases List.mem_map.1 h2 with ⟨e', he', hpe⟩
        rcases List.mem_cons.1 he' with rfl | he''
        · exact hep (hpe ▸ ((dupEvents_sublist rest (e'.digest :: seen)).map Ev.path).mem h1)
        · exact ih (e.digest :: seen) hnd' p h1 (List.mem_map.2 ⟨e', he'', hpe⟩)

theorem cleanPath_cons {c : String} {p : Path} :
    cleanPath (c :: p) = true ↔ startsDotDot c = false ∧ cleanPath p = true := by
  simp [cleanPath, List.all_cons]

theorem relHasDotDot_eq_false_iff :
    ∀ (a b : Path), cleanPath b = true → (relHasDotDot a b = false ↔ a <+: b) := by
  intro a
  induction a with
  | nil =>
      intro b hb
      cases b with
      | nil => simp [relHasDotDot, relComponents, List.nil_prefix]
      | cons y bs =>
          have hy : startsDotDot y = false := (cleanPath_cons.1 hb).1
          have hcomp : relComponents [] (y :: bs) = y :: bs := rfl
          have : relHasDotDot [] (y :: bs) = startsDotDot y := by
            unfold relHasDotDot
            rw [hcomp]
          simp [this, hy, List.nil_prefix]
  | cons x xs ih =>
      intro b hb
      cases b with
      | nil =>
          have hcomp : relComponents (x :: xs) [] = ".." :: List.replicate xs.length ".." := by
            simp [relComponents, List.replicate_succ]
          have hrel : relHasDotDot (x :: xs) [] = true := by
            unfold relHasDotDot
            rw [hcomp]
            rfl
          rw [hrel]
          simp [List.prefix_nil]
      | cons y bs =>
          obtain ⟨hy, hbs⟩ := cleanPath_cons.1 hb
          by_cases hxy : x = y
          · subst hxy
            have hstep : relHasDotDot (x :: xs) (x :: bs) = relHasDotDot xs bs := by
              unfold relHasDotDot
              rw [show relComponents (x :: xs) (x :: bs) = relComponents xs bs by
                simp [relComponents]]
            rw [hstep, ih bs hbs, List.cons_prefix_cons]
            simp
          · have hcomp : relComponents (x :: xs) (y :: bs) =
                ".." :: (List.replicate xs.length ".." ++ (y :: bs)) := by
              simp [relComponents, hxy, List.replicate_succ]
            have hrel : relHasDotDot (x :: xs) (y :: bs) = true := by
              unfold relHasDotDot
              rw [hcomp]
              rfl
            rw [hrel]
            simp [List.cons_prefix_cons, hxy]

theorem relHasDotDot_eq_false_implies :
    ∀ (a b : Path), relHasDotDot a b = false → a <+: b := by
  intro a
  induction a with
  | nil =>
      intro b _
      exact List.nil_prefix
  | cons x xs ih =>
      intro b h
      cases b with
      | nil =>
          have hcomp : relComponents (x :: xs) [] = ".." :: List.replicate xs.length ".." := by
            simp [relComponents, List.replicate_succ]
          have hrel : relHasDotDot (x :: xs) [] = true := by
            unfold relHasDotDot
            rw [hcomp]
            rfl
          rw [hrel] at h
          cases h
      | cons y bs =>
          by_cases hxy : x = y
          · subst hxy
            have hstep : relHasDotDot (x :: xs) (x :: bs) = relHasDotDot xs bs := by
              unfold relHasDotDot
              rw [show relComponents (x :: xs) (x :: bs) = relComponents xs bs by
                simp [relComponents]]
            rw [hstep] at h
            exact List.cons_prefix_cons.2 ⟨rfl, ih bs h⟩
          · have hcomp : relComponents (x :: xs) (y :: bs) =
                ".." :: (List.replicate xs.length ".." ++ (y :: bs)) := by
              simp [relComponents, hxy, List.replicate_succ]
            have hrel : relHasDotDot (x :: xs) (y :: bs) = true := by
              unfold relHasDotDot
              rw [hcomp]
              rfl
            rw [hrel] at h
            cases h

theorem pruneLoop_sublist (actual : Path) :
    ∀ set : List Path, List.Sublist (pruneLoop actual set).1 set := by
  intro set
  induction set with
  | nil => simp [pruneLoop]
  | cons r rest ih =>
      simp only [pruneLoop]
      by_cases hc : relHasDotDot r actual ≠ relHasDotDot actual r
      · rw [if_pos hc]
        by_cases hp : relHasDotDot r actual = true
        · rw [if_pos hp]
          exact ih.cons r
        · rw [if_neg hp]
      · rw [if_neg hc]
        exact ih.cons₂ r

theorem pruneLoop_spec (actual : Path) (hact : cleanPath actual = true) :
    ∀ set : List Path, (∀ r ∈ set, cleanPath r = true) → actual ∉ set →
      ((pruneLoop actual set).2 = true →
        ∀ r ∈ (pruneLoop actual set).1, ¬ r <+: actual ∧ ¬ actual <+: r) ∧
      ((pruneLoop actual set).2 = false →
        ∃ r ∈ (pruneLoop actual set).1, r <+: actual ∧ r ≠ actual) ∧
      (∀ r ∈ set, r ∉ (pruneLoop actual set).1 → actual <+: r) := by
  intro set
  induction set with
  | nil =>
      intro _ _
      refine ⟨?_, ?_, ?_⟩
      · intro _ r hr
        simp [pruneLoop] at hr
      · intro h
        simp [pruneLoop] at h
      · intro r hr
        simp at hr
  | cons r0 rest ih =>
      intro hclean hmem
      have hcr : cleanPath r0 = true := hclean r0 (List.mem_cons_self r0 rest)
      have hcrest : ∀ r ∈ rest, cleanPath r = true :=
        fun r hr => hclean r (List.mem_cons_of_mem r0 hr)
      have hne : actual ≠ r0 := fun h => hmem (h ▸ List.mem_cons_self r0 rest)
      have hnrest : actual ∉ rest := fun h => hmem (List.mem_cons_of_mem r0 h)
      obtain ⟨ih1, ih2, ih3⟩ := ih hcrest hnrest
      by_cases hc : relHasDotDot r0 actual ≠ relHasDotDot actual r0
      · by_cases hp : relHasDotDot r0 actual = true
        · have hq : relHasDotDot actual r0 = false := by
            cases hqq : relHasDotDot actual r0
            · rfl
            · exact absurd (hp.trans hqq.symm) hc
          have hanc : actual <+: r0 := (relHasDotDot_eq_false_iff actual r0 hcr).1 hq
          have hres : pruneLoop actual (r0 :: rest) = pruneLoop actual rest := by
            simp only [pruneLoop, if_pos hc, if_pos hp]
          rw [hres]
          refine ⟨ih1, ih2, ?_⟩
          intro r hr hnr
          rcases List.mem_cons.1 hr with rfl | hr'
          · exact hanc
          · exact ih3 r hr' hnr
        · have hp' : relHasDotDot r0 actual = false := by
            cases hpp : relHasDotDot r0 actual
            · rfl
            · exact absurd hpp hp
          have hanc : r0 <+: actual := (relHasDotDot_eq_false_iff r0 actual hact).1 hp'
          have hres : pruneLoop actual (r0 :: rest) = (r0 :: rest, false) := by
            simp only [pruneLoop, if_pos hc, if_neg hp]
          rw [hres]
          refine ⟨?_, ?_, ?_⟩
          · intro h
            simp at h
          · intro _
            exact ⟨r0, List.mem_cons_self r0 rest, hanc, fun h => hne h.symm⟩
          · intro r hr hnr
            exact absurd hr hnr
      · have hres1 : (pruneLoop actual (r0 :: rest)).1 = r0 :: (pruneLoop actual rest).1 := by
          simp only [pruneLoop, if_neg hc]
        have hres2 : (pruneLoop actual (r0 :: rest)).2 = (pruneLoop actual rest).2 := by
          simp only [pruneLoop, if_neg hc]
        push_neg at hc
        refine ⟨?_, ?_, ?_⟩
        · intro h2 r hr
          rw [hres1] at hr
          rcases List.mem_cons.1 hr with rfl | hr'
          · cases hb : relHasDotDot r actual
            · have h1 : r <+: actual := (relHasDotDot_eq_false_iff r actual hact).1 hb
              have hbb : relHasDotDot actual r = false := by rw [← hc]; exact hb
              have h2' : actual <+: r := (relHasDotDot_eq_false_iff actual r hcr).1 hbb
              exact absurd (List.Sublist.antisymm h2'.sublist h1.sublist) hne
            · have hbb : relHasDotDot actual r = true := by rw [← hc]; exact hb
              constructor
              · intro hpre
                have hf := (relHasDotDot_eq_false_iff r actual hact).2 hpre
                rw [hf] at hb
                cases hb
              · intro hpre
                have hf := (relHasDotDot_eq_false_iff actual r hcr).2 hpre
                rw [hf] at hbb
                cases hbb
          · exact ih1 (by rw [← hres2]; exact h2) r hr'
        · intro h2
          rw [hres2] at h2
          obtain ⟨r, hr, h⟩ := ih2 h2
          exact ⟨r, by rw [hres1]; exact List.mem_cons_of_mem r0 hr, h⟩
        · intro r hr hnr
          rw [hres1] at hnr
          rcases List.mem_cons.1 hr with rfl | hr'
          · exact absurd (List.mem_cons_self r (pruneLoop actual rest).1) hnr
          · exact ih3 r hr' fun hh => hnr (List.mem_cons_of_mem r0 hh)

/-- No two distinct accepted roots are in an ancestor (component-prefix)
relation. -/
def GoodSet (set : List Path) : Prop :=
  ∀ a ∈ set, ∀ b ∈ set, a ≠ b → ¬ a <+: b

theorem addRoot_mem (set : List Path) (actual : Path) :
    ∀ r ∈ addRoot set actual, r ∈ set ∨ r = actual := by
  intro r hr
  unfold addRoot at hr
  by_cases hm : actual ∈ set
  · rw [if_pos hm] at hr
    exact Or.inl hr
  · rw [if_neg hm] at hr
    by_cases ha : (pruneLoop actual set).2 = true
    · rw [if_pos ha] at hr
      rcases List.mem_append.1 hr with h | h
      · exact Or.inl ((pruneLoop_sublist actual set).subset h)
      · exact Or.inr (List.mem_singleton.1 h)
    · rw [if_neg ha] at hr
      exact Or.inl ((pruneLoop_sublist actual set).subset hr)

theorem addRoot_good (set : List Path) (actual : Path) (hgood : GoodSet set)
    (hclean : ∀ r ∈ set, cleanPath r = true) (hact : cleanPath actual = true) :
    GoodSet (addRoot set actual) := by
  unfold addRoot
  by_cases hm : actual ∈ set
  · rw [if_pos hm]
    exact hgood
  · rw [if_neg hm]
    obtain ⟨hs1, _, _⟩ := pruneLoop_spec actual hact set hclean hm
    have hsub := pruneLoop_sublist actual set
    by_cases ha : (pruneLoop actual set).2 = true
    · rw [if_pos ha]
      intro a haa b hbb hne
      rcases List.mem_append.1 haa with ha' | ha' <;> rcases List.mem_append.1 hbb with hb' | hb'
      · exact hgood a (hsub.subset ha') b (hsub.subset hb') hne
      · obtain rfl := List.mem_singleton.1 hb'
        exact (hs1 ha a ha').1
      · obtain rfl := List.mem_singleton.1 ha'
        exact (hs1 ha b hb').2
      · obtain rfl := List.mem_singleton.1 ha'
        obtain rfl := List.mem_singleton.1 hb'
        exact absurd rfl hne
    · rw [if_neg ha]
      intro a haa b hbb hne
      exact hgood a (hsub.subset haa) b (hsub.subset hbb) hne

theorem addRoot_covers (set : List Path) (actual : Path)
    (hclean : ∀ r ∈ set, cleanPath r = true) (hact : cleanPath actual = true) :
    (∀ q, (∃ r ∈ set, r <+: q) → ∃ r ∈ addRoot set actual, r <+: q) ∧
    (∃ r ∈ addRoot set actual, r <+: actual) := by
  unfold addRoot
  by_cases hm : actual ∈ set
  · rw [if_pos hm]
    exact ⟨fun q h => h, ⟨actual, hm, List.prefix_refl actual⟩⟩
  · rw [if_neg hm]
    obtain ⟨_, hs2, hs3⟩ := pruneLoop_spec actual hact set hclean hm
    by_cases ha : (pruneLoop actual set).2 = true
    · rw [if_pos ha]
      constructor
      · rintro q ⟨r, hr, hrq⟩
        by_cases hrs : r ∈ (pruneLoop actual set).1
        · exact ⟨r, List.mem_append_left _ hrs, hrq⟩
        · exact ⟨actual, List.mem_append_right _ (List.mem_singleton.2 rfl),
            (hs3 r hr hrs).trans hrq⟩
      · exact ⟨actual, List.mem_append_right _ (List.mem_singleton.2 rfl),
          List.prefix_refl actual⟩
    · rw [if_neg ha]
      have hfa : (pruneLoop actual set).2 = false := by
        cases hb : (pruneLoop actual set).2
        · rfl
        · exact absurd hb ha
      obtain ⟨r0, hr0, hr0a, _⟩ := hs2 hfa
      constructor
      · rintro q ⟨r, hr, hrq⟩
        by_cases hrs : r ∈ (pruneLoop actual set).1
        · exact ⟨r, hrs, hrq⟩
        · exact ⟨r0, hr0, (hr0a.trans (hs3 r hr hrs)).trans hrq⟩
      · exact ⟨r0, hr0, hr0a⟩

theorem normalizeFold_fst (paths : List Path) :
    ∀ st : List Path × Option Path,
      (paths.foldl (fun acc p => (addRoot acc.1 p, some p)) st).1 =
        paths.foldl addRoot st.1 := by
  induction paths with
  | nil => intro st; rfl
  | cons p rest ih => intro st; simp only [List.foldl_cons, ih]

theorem foldl_addRoot_spec :
    ∀ (rest : List Path), (∀ p ∈ rest, cleanPath p = true) →
      ∀ set : List Path, GoodSet set → (∀ r ∈ set, cleanPath r = true) →
        GoodSet (rest.foldl addRoot set) ∧
        (∀ r ∈ rest.foldl addRoot set, cleanPath r = true) ∧
        (∀ q, (∃ r ∈ set, r <+: q) → ∃ r ∈ rest.foldl addRoot set, r <+: q) ∧
        (∀ p ∈ rest, ∃ r ∈ rest.foldl addRoot set, r <+: p) := by
  intro rest
  induction rest with
  | nil =>
      intro _ set hg hc
      exact ⟨hg, hc, fun q h => h, fun p hp => absurd hp (List.not_mem_nil p)⟩
  | cons p rest' ih =>
      intro hcl set hg hc
      have hcp : cleanPath p = true := hcl p (List.mem_cons_self p rest')
      have hcl' : ∀ x ∈ rest', cleanPath x = true :=
        fun x hx => hcl x (List.mem_cons_of_mem p hx)
      have hg' : GoodSet (addRoot set p) := addRoot_good set p hg hc hcp
      have hc' : ∀ r ∈ addRoot set p, cleanPath r = true := by
        intro r hr
        rcases addRoot_mem set p r hr with h | rfl
        · exact hc r h
        · exact hcp
      obtain ⟨f1, f2, f3, f4⟩ := ih hcl' (addRoot set p) hg' hc'
      have hcov := addRoot_covers set p hc hcp
      refine ⟨f1, f2, ?_, ?_⟩
      · intro q hq
        exact f3 q (hcov.1 q hq)
      · intro x hx
        rcases List.mem_cons.1 hx with rfl | hx'
        · exact f3 x hcov.2
        · exact f4 x hx'

theorem path_mem_filter_iff (l sub : List Ev) (hsub : List.Sublist sub l)
    (hnd : (l.map Ev.path).Nodup) (q : Ev → Bool) (e : Ev) (hel : e ∈ l) :
    e.path ∈ (sub.filter q).map Ev.path ↔ (e ∈ sub ∧ q e = true) := by
  constructor
  · intro h
    obtain ⟨e', he', hpe⟩ := List.mem_map.1 h
    obtain ⟨he'sub, hq⟩ := List.mem_filter.1 he'
    have heq : e' = e := List.inj_on_of_nodup_map hnd (hsub.subset he'sub) hel hpe
    subst heq
    exact ⟨he'sub, hq⟩
  · intro h
    exact List.mem_map.2 ⟨e, List.mem_filter.2 ⟨h.1, h.2⟩, rfl⟩

/-! ### Claim theorems -/

/-- Claim C2, counterexample to the unqualified claim: with a directory
literally named `..b`, `filepath.Rel("/a", "/a/..b") = "..b"` starts with
`..`, so the pruning loop treats `/a` and `/a/..b` as unrelated and keeps
both — yet `/a` is a component-wise ancestor of `/a/..b`. -/
theorem normalizeRoots_spec_cex :
    normalizeRoots [["a"], ["a", "..b"]] = [["a"], ["a", "..b"]] ∧
    ["a"] <+: ["a", "..b"] ∧ (["a"] : Path) ≠ ["a", "..b"] := by
  refine ⟨by decide, ⟨["..b"], rfl⟩, by decide⟩

/-- Claim C2 (amended): for input paths none of whose name components
starts with `..` (so the code's `rel`-based test agrees with
component-wise ancestry), no surviving root is an ancestor of another
surviving root; whenever one input is a strict ancestor of another, the
narrower one never survives, regardless of the order the two were
supplied in; and every input stays covered by some surviving
ancestor-or-equal root. -/
theorem normalizeRoots_spec (paths : List Path) (hc : ∀ p ∈ paths, cleanPath p = true) :
    (∀ a ∈ normalizeRoots paths, ∀ b ∈ normalizeRoots paths, a ≠ b → ¬ a <+: b) ∧
    (∀ p ∈ paths, ∀ q ∈ paths, p <+: q → p ≠ q → q ∉ normalizeRoots paths) ∧
    (∀ p ∈ paths, ∃ r ∈ normalizeRoots paths, r <+: p) := by
  have hfold := foldl_addRoot_spec paths hc []
    (fun a ha => absurd ha (List.not_mem_nil a))
    (fun r hr => absurd hr (List.not_mem_nil r))
  have heq : normalizeRoots paths = paths.foldl addRoot [] := by
    unfold normalizeRoots normalizeState
    exact normalizeFold_fst paths ([], none)
  obtain ⟨hg, _, _, hcov⟩ := hfold
  rw [heq]
  refine ⟨hg, ?_, hcov⟩
  intro p hp q hq hpq hne hqmem
  obtain ⟨r, hr, hrp⟩ := hcov p hp
  by_cases hrq : r = q
  · subst hrq
    exact hne (List.Sublist.antisymm hpq.sublist hrp.sublist)
  · exact absurd (hrp.trans hpq) (hg r hr q hqmem hrq)

/-- Witness for C2: with arguments `/a`, `/a/b`, `/c` the nested `/a/b`
does not survive. -/
theorem normalizeRoots_spec_witness :
    (["a", "b"] : Path) ∉ normalizeRoots [["a"], ["a", "b"], ["c"]] := by
  have h := normalizeRoots_spec [["a"], ["a", "b"], ["c"]] (by decide)
  exact h.2.1 ["a"] (by decide) ["a", "b"] (by decide) ⟨["b"], rfl⟩ (by decide)

/-- Claim C9 (implicit): in deletion mode every group stored in the index
is the singleton of its digest's first-seen path — no later same-digest
path is ever appended, whether its removal succeeds, fails, or is skipped
by the last-root restriction.  Quantifying over every event sequence
makes this an invariant of every reachable state. -/
theorem remove_mode_groups_singleton (rol : Bool) (lr : Path) (events : List Ev) (d : Nat) :
    lookupH (runDedup true rol lr events).hashes d =
      (events.find? (fun e => e.digest == d)).map fun e => [e.path] := by
  have h := run_remove_hashes rol lr events initState d
  simpa [runDedup, initState, lookupH] using h

/-- Claim C3, counterexample to the unqualified claim: in deletion mode
with the last-root restriction on and last root `/b`, the duplicate
`/a/y` of `/a/x` is skipped by the restriction, so it is a non-first
group member that ends up in neither the removed list nor the
unable-to-remove list. -/
theorem remove_mode_outcomes_cex :
    dupEvents [] [⟨1, ["a", "x"], 5, true⟩, ⟨1, ["a", "y"], 5, true⟩] =
      [⟨1, ["a", "y"], 5, true⟩] ∧
    (runDedup true true ["b"] [⟨1, ["a", "x"], 5, true⟩, ⟨1, ["a", "y"], 5, true⟩]).removed = [] ∧
    (runDedup true true ["b"]
      [⟨1, ["a", "x"], 5, true⟩, ⟨1, ["a", "y"], 5, true⟩]).unableToRemove = [] := by
  refine ⟨by decide, by decide, by decide⟩

/-- Claim C3 (amended): in deletion mode (with or without the last-root
restriction) the first-discovered path of every group is never passed to
`os.Remove` and never appears in either outcome list; every other group
member that the last-root restriction does not skip (the skip being the
code's test at src line 329) ends up in exactly one of the removed and
unable-to-remove lists, according to whether its removal succeeded; and
a member the restriction skips is never attempted and lands in neither
list. -/
theorem remove_mode_outcomes (rol : Bool) (lr : Path) (events : List Ev)
    (hnd : (events.map Ev.path).Nodup) :
    (∀ e ∈ firstEvents [] events,
      e.path ∉ (runDedup true rol lr events).attempts ∧
      e.path ∉ (runDedup true rol lr events).removed ∧
      e.path ∉ (runDedup true rol lr events).unableToRemove) ∧
    (∀ e ∈ dupEvents [] events,
      (recordedB rol lr e = true →
        (e.removeOk = true →
          e.path ∈ (runDedup true rol lr events).removed ∧
          e.path ∉ (runDedup true rol lr events).unableToRemove) ∧
        (e.removeOk = false →
          e.path ∉ (runDedup true rol lr events).removed ∧
          e.path ∈ (runDedup true rol lr events).unableToRemove)) ∧
      (recordedB rol lr e = false →
        e.path ∉ (runDedup true rol lr events).attempts ∧
        e.path ∉ (runDedup true rol lr events).removed ∧
        e.path ∉ (runDedup true rol lr events).unableToRemove)) := by
  obtain ⟨hrem, hun, hatt⟩ :=
    run_remove_lists rol lr events initState [] (by intro d; simp [initState, lookupH])
  have hrem' : (runDedup true rol lr events).removed =
      ((dupEvents [] events).filter (fun e => recordedB rol lr e && e.removeOk)).map Ev.path := by
    simpa [runDedup, initState] using hrem
  have hun' : (runDedup true rol lr events).unableToRemove =
      ((dupEvents [] events).filter (fun e => recordedB rol lr e && !e.removeOk)).map Ev.path := by
    simpa [runDedup, initState] using hun
  have hatt' : (runDedup true rol lr events).attempts =
      ((dupEvents [] events).filter (fun e => recordedB rol lr e)).map Ev.path := by
    simpa [runDedup, initState] using hatt
  constructor
  · intro e he
    have hmemf : e.path ∈ (firstEvents [] events).map Ev.path :=
      List.mem_map.2 ⟨e, he, rfl⟩
    have hnot : ∀ q : Ev → Bool, e.path ∉ ((dupEvents [] events).filter q).map Ev.path := by
      intro q hmem
      obtain ⟨e', he', hpe⟩ := List.mem_map.1 hmem
      exact dup_first_paths_disjoint events [] hnd e.path
        (List.mem_map.2 ⟨e', (List.mem_filter.1 he').1, hpe⟩) hmemf
    refine ⟨?_, ?_, ?_⟩
    · rw [hatt']; exact hnot _
    · rw [hrem']; exact hnot _
    · rw [hun']; exact hnot _
  · intro e he
    have hel : e ∈ events := (dupEvents_sublist events []).subset he
    constructor
    · intro hrec
      constructor
      · intro hok
        constructor
        · rw [hrem']
          exact (path_mem_filter_iff events _ (dupEvents_sublist events []) hnd _ e hel).2
            ⟨he, by simp [hrec, hok]⟩
        · rw [hun']
          intro hmem
          have := (path_mem_filter_iff events _ (dupEvents_sublist events []) hnd _ e hel).1 hmem
          simp [hrec, hok] at this
      · intro hok
        constructor
        · rw [hrem']
          intro hmem
          have := (path_mem_filter_iff events _ (dupEvents_sublist events []) hnd _ e hel).1 hmem
          simp [hrec, hok] at this
        · rw [hun']
          exact (path_mem_filter_iff events _ (dupEvents_sublist events []) hnd _ e hel).2
            ⟨he, by simp [hrec, hok]⟩
    · intro hrec
      refine ⟨?_, ?_, ?_⟩
      · rw [hatt']
        intro hmem
        have := (path_mem_filter_iff events _ (dupEvents_sublist events []) hnd _ e hel).1 hmem
        simp [hrec] at this
      · rw [hrem']
        intro hmem
        have := (path_mem_filter_iff events _ (dupEvents_sublist events []) hnd _ e hel).1 hmem
        simp [hrec] at this
      · rw [hun']
        intro hmem
        have := (path_mem_filter_iff events _ (dupEvents_sublist events []) hnd _ e hel).1 hmem
        simp [hrec] at this

/-- Witness for C3: the first-seen `/x` lands in no list while its
duplicate `/y` is removed (restriction off); and with the restriction on
with last root `/b`, the skipped duplicate `/a/y` is in neither list. -/
theorem remove_mode_outcomes_witness :
    (["x"] : Path) ∉
      (runDedup true false [] [⟨1, ["x"], 5, true⟩, ⟨1, ["y"], 5, true⟩, ⟨2, ["z"], 3, false⟩]).removed ∧
    (["y"] : Path) ∈
      (runDedup true false [] [⟨1, ["x"], 5, true⟩, ⟨1, ["y"], 5, true⟩, ⟨2, ["z"], 3, false⟩]).removed ∧
    (["a", "y"] : Path) ∉
      (runDedup true true ["b"] [⟨1, ["a", "x"], 5, true⟩, ⟨1, ["a", "y"], 5, true⟩]).unableToRemove := by
  have h := remove_mode_outcomes false []
    [⟨1, ["x"], 5, true⟩, ⟨1, ["y"], 5, true⟩, ⟨2, ["z"], 3, false⟩] (by decide)
  have h2 := remove_mode_outcomes true ["b"]
    [⟨1, ["a", "x"], 5, true⟩, ⟨1, ["a", "y"], 5, true⟩] (by decide)
  exact ⟨(h.1 ⟨1, ["x"], 5, true⟩ (by decide)).2.1,
    (((h.2 ⟨1, ["y"], 5, true⟩ (by decide)).1 (by decide)).1 rfl).1,
    ((h2.2 ⟨1, ["a", "y"], 5, true⟩ (by decide)).2 (by decide)).2.2⟩

/-- Claim C4, counterexample to the unqualified claim: with last root
`/a`, the duplicate `/a/..b/f` lies within the last root by canonical
path containment, yet `filepath.Rel("/a", "/a/..b/f") = "..b/f"` starts
with `..`, so the restriction (src line 329) skips it: it is never
handed to `os.Remove` and gets no outcome, contradicting "a duplicate
inside the last root proceeds to the deletion attempt". -/
theorem lastRoot_restriction_cex :
    (["a"] : Path) <+: ["a", "..b", "f"] ∧
    dupEvents [] [⟨1, ["a", "x"], 5, true⟩, ⟨1, ["a", "..b", "f"], 5, true⟩] =
      [⟨1, ["a", "..b", "f"], 5, true⟩] ∧
    (runDedup true true ["a"]
      [⟨1, ["a", "x"], 5, true⟩, ⟨1, ["a", "..b", "f"], 5, true⟩]).attempts = [] ∧
    (runDedup true true ["a"]
      [⟨1, ["a", "x"], 5, true⟩, ⟨1, ["a", "..b", "f"], 5, true⟩]).removed = [] ∧
    (runDedup true true ["a"]
      [⟨1, ["a", "x"], 5, true⟩, ⟨1, ["a", "..b", "f"], 5, true⟩]).unableToRemove = [] := by
  refine ⟨⟨["..b", "f"], rfl⟩, by decide, by decide, by decide, by decide⟩

/-- Claim C4 (amended): with the last-root restriction on in deletion
mode, a duplicate whose canonical path does not lie within the
designated last root is never handed to `os.Remove` and gets no recorded
outcome (this direction needs no proviso: a path the `rel` test accepts
is always inside); a duplicate inside the last root whose path has no
name component starting with `..` proceeds to the deletion attempt and
is recorded by its outcome. -/
theorem lastRoot_restriction (lr : Path) (events : List Ev) (e : Ev)
    (hnd : (events.map Ev.path).Nodup) (he : e ∈ dupEvents [] events) :
    (¬ lr <+: e.path →
      e.path ∉ (runDedup true true lr events).attempts ∧
      e.path ∉ (runDedup true true lr events).removed ∧
      e.path ∉ (runDedup true true lr events).unableToRemove) ∧
    (cleanPath e.path = true → lr <+: e.path →
      e.path ∈ (runDedup true true lr events).attempts ∧
      (e.removeOk = true → e.path ∈ (runDedup true true lr events).removed) ∧
      (e.removeOk = false → e.path ∈ (runDedup true true lr events).unableToRemove)) := by
  obtain ⟨hrem, hun, hatt⟩ :=
    run_remove_lists true lr events initState [] (by intro d; simp [initState, lookupH])
  have hrem' : (runDedup true true lr events).removed =
      ((dupEvents [] events).filter (fun e => recordedB true lr e && e.removeOk)).map Ev.path := by
    simpa [runDedup, initState] using hrem
  have hun' : (runDedup true true lr events).unableToRemove =
      ((dupEvents [] events).filter (fun e => recordedB true lr e && !e.removeOk)).map Ev.path := by
    simpa [runDedup, initState] using hun
  have hatt' : (runDedup true true lr events).attempts =
      ((dupEvents [] events).filter (fun e => recordedB true lr e)).map Ev.path := by
    simpa [runDedup, initState] using hatt
  have hel : e ∈ events := (dupEvents_sublist events []).subset he
  constructor
  · intro hpre
    have hdd : relHasDotDot lr e.path = true := by
      cases hb : relHasDotDot lr e.path
      · exact absurd (relHasDotDot_eq_false_implies lr e.path hb) hpre
      · rfl
    have hrecB : recordedB true lr e = false := by simp [recordedB, hdd]
    refine ⟨?_, ?_, ?_⟩
    · rw [hatt']
      intro hmem
      have := (path_mem_filter_iff events _ (dupEvents_sublist events []) hnd _ e hel).1 hmem
      simp [hrecB] at this
    · rw [hrem']
      intro hmem
      have := (path_mem_filter_iff events _ (dupEvents_sublist events []) hnd _ e hel).1 hmem
      simp [hrecB] at this
    · rw [hun']
      intro hmem
      have := (path_mem_filter_iff events _ (dupEvents_sublist events []) hnd _ e hel).1 hmem
      simp [hrecB] at this
  · intro hcp hpre
    have hdd : relHasDotDot lr e.path = false :=
      (relHasDotDot_eq_false_iff lr e.path hcp).2 hpre
    have hrecB : recordedB true lr e = true := by simp [recordedB, hdd]
    refine ⟨?_, ?_, ?_⟩
    · rw [hatt']
      exact (path_mem_filter_iff events _ (dupEvents_sublist events []) hnd _ e hel).2 ⟨he, hrecB⟩
    · intro hok
      rw [hrem']
      exact (path_mem_filter_iff events _ (dupEvents_sublist events []) hnd _ e hel).2
        ⟨he, by simp [hrecB, hok]⟩
    · intro hok
      rw [hun']
      exact (path_mem_filter_iff events _ (dupEvents_sublist events []) hnd _ e hel).2
        ⟨he, by simp [hrecB, hok]⟩

/-- Witness for C4: the duplicate `/a/y` is not inside last root `/b`
and gets no outcome; the clean duplicate `/c/y` is inside last root `/c`
and is removed. -/
theorem lastRoot_restriction_witness :
    (["a", "y"] : Path) ∉
      (runDedup true true ["b"] [⟨1, ["a", "x"], 5, true⟩, ⟨1, ["a", "y"], 5, true⟩]).removed ∧
    (["c", "y"] : Path) ∈
      (runDedup true true ["c"] [⟨1, ["a", "x"], 5, true⟩, ⟨1, ["c", "y"], 5, true⟩]).removed := by
  have h1 := lastRoot_restriction ["b"] [⟨1, ["a", "x"], 5, true⟩, ⟨1, ["a", "y"], 5, true⟩]
    ⟨1, ["a", "y"], 5, true⟩ (by decide) (by decide)
  have h2 := lastRoot_restriction ["c"] [⟨1, ["a", "x"], 5, true⟩, ⟨1, ["c", "y"], 5, true⟩]
    ⟨1, ["c", "y"], 5, true⟩ (by decide) (by decide)
  exact ⟨(h1.1 (by decide)).2.1, (h2.2 (by decide) ⟨["y"], rfl⟩).2.1 rfl⟩

/-- Claim C1: the duplicate-index update of `processFile`.  For an unseen
digest a fresh one-element group is installed, the duplicate counters are
untouched, and the file is reported as not a duplicate; for a seen digest
the duplicate counters grow by exactly 1 and `size`, and the path is
appended to the group exactly when deletion mode is off (in deletion mode
the map is left unchanged and `needRemove` hands the path to the removal
section). -/
theorem record_contract (remove : Bool) (st : FState) (e : Ev) :
    (lookupH st.hashes e.digest = none →
      (recordStep remove st e).1.hashes = setH st.hashes e.digest [e.path] ∧
      (recordStep remove st e).1.duplicatesFound = st.duplicatesFound ∧
      (recordStep remove st e).1.duplicateBytes = st.duplicateBytes ∧
      (recordStep remove st e).2.1 = false ∧
      (recordStep remove st e).2.2 = false) ∧
    (∀ g, lookupH st.hashes e.digest = some g →
      (recordStep remove st e).1.duplicatesFound = st.duplicatesFound + 1 ∧
      (recordStep remove st e).1.duplicateBytes = st.duplicateBytes + e.size ∧
      (recordStep remove st e).2.1 = true ∧
      (recordStep remove st e).2.2 = remove ∧
      (remove = false →
        (recordStep remove st e).1.hashes = setH st.hashes e.digest (g ++ [e.path])) ∧
      (remove = true → (recordStep remove st e).1.hashes = st.hashes)) := by
  constructor
  · intro h
    simp [recordStep, h]
  · intro g h
    cases remove <;> simp [recordStep, h]

/-- Witness for C1: a state whose digest `1` holds group `[["a"]]`; the
new same-digest path `["b"]` bumps the duplicate count and is appended. -/
theorem record_contract_witness :
    (recordStep false ⟨[(1, [["a"]])], 3, 9, 0, 0, [], [], []⟩ ⟨1, ["b"], 7, true⟩).1.duplicatesFound
        = 0 + 1 ∧
    (recordStep false ⟨[(1, [["a"]])], 3, 9, 0, 0, [], [], []⟩ ⟨1, ["b"], 7, true⟩).1.hashes
        = setH [(1, [["a"]])] 1 ([["a"]] ++ [["b"]]) := by
  have h := record_contract false ⟨[(1, [["a"]])], 3, 9, 0, 0, [], [], []⟩ ⟨1, ["b"], 7, true⟩
  exact ⟨(h.2 [["a"]] rfl).1, (h.2 [["a"]] rfl).2.2.2.2.1 rfl⟩

/-- Claim C5 (code bug): per the documented `filepath.WalkFunc` contract,
`info` is nil whenever `os.Lstat` failed on the entry; `walker`
dereferences it unconditionally, so any such per-entry traversal error
panics and aborts the whole run (first conjunct).  With valid info the
callback always returns normally, never propagating an error (second
conjunct), and the per-root loop of `main` exits fatally exactly when
some root's `filepath.Walk` call reports an error (third conjunct). -/
theorem walker_err_handling (hidden : Bool) (exts : List String) (cs : Bool) :
    walkerEntry hidden exts cs none = none ∧
    (∀ i : FileInfo, walkerEntry hidden exts cs (some i) =
      some (walkerAct hidden exts cs i.name i.isDir)) ∧
    (∀ results : List (Option String),
      (mainWalkLoop results).isSome = true ↔ ∃ er ∈ results, er.isSome = true) := by
  refine ⟨rfl, fun _ => rfl, ?_⟩
  intro results
  induction results with
  | nil => simp [mainWalkLoop]
  | cons r rest ih =>
      cases r with
      | some e => simp [mainWalkLoop]
      | none => simp [mainWalkLoop, ih]

/-- Witness for C5: a nil-info walker call crashes, and a run whose second
root fails to walk is fatal. -/
theorem walker_err_handling_witness :
    walkerEntry false [] false none = none ∧
    (mainWalkLoop [none, some "boom"]).isSome = true := by
  have h := walker_err_handling false [] false
  exact ⟨h.1, (h.2.2 [none, some "boom"]).2 ⟨some "boom", by decide, rfl⟩⟩

/-- Claim C7: the extension filter.  With no configured suffixes every
name is accepted; otherwise the (case-adjusted) name is accepted exactly
when some configured suffix matches.  Configuration normalizes each entry
by lower-casing (unless case-sensitive), prepending a missing `.`, and
dropping entries that normalize to a bare `.`; in particular the
case-insensitive allow-list `.txt` accepts `A.TXT` and rejects `a.md`. -/
theorem isFileNameAcceptable_contract (cs : Bool) :
    (∀ name, isFileNameAcceptable [] cs name = true) ∧
    (∀ exts name, exts ≠ [] →
      (isFileNameAcceptable exts cs name = true ↔
        ∃ ext ∈ exts, hasSuffix (if cs then name else lowerStr name) ext = true)) ∧
    (∀ exts, normalizeExtensions cs exts =
      (exts.map fun one =>
        let one := if cs then one else lowerStr one
        if startsDot one then one else "." ++ one).filter (fun one => one != ".")) ∧
    (isFileNameAcceptable (normalizeExtensions false [".txt"]) false "A.TXT" = true ∧
      isFileNameAcceptable (normalizeExtensions false [".txt"]) false "a.md" = false) := by
  refine ⟨fun name => rfl, ?_, ?_, by decide, by decide⟩
  · intro exts name hne
    cases cs <;>
      simp [isFileNameAcceptable, List.isEmpty_iff, hne, List.any_eq_true]
  · intro exts
    exact normalizeExtensions_foldl cs exts []

/-- Witness for C7: the nonempty-allow-list characterization applied to
the list `[".a"]` and the name `"b.a"`. -/
theorem isFileNameAcceptable_contract_witness :
    isFileNameAcceptable [".a"] false "b.a" = true ↔
      ∃ ext ∈ [".a"], hasSuffix (if false then "b.a" else lowerStr "b.a") ext = true := by
  exact (isFileNameAcceptable_contract false).2.1 [".a"] "b.a" (by decide)

/-- Claim C8: `removeOnlyFromLastRoot` is reassigned on every loop
iteration (src line 97), so after normalization it is the canonical form
of the final command-line path, independent of whether that path survived
pruning. -/
theorem lastRoot_designation (paths : List Path) (h : paths ≠ []) :
    (normalizeState paths).2 = some (paths.getLast h) := by
  unfold normalizeState
  rw [normalizeFold_snd, List.getLast?_eq_getLast _ h]
  rfl

/-- Witness for C8: with arguments `/a` then `/a/b`, the last root is
`/a/b` even though pruning drops it from the surviving root set. -/
theorem lastRoot_designation_witness :
    (normalizeState [["a"], ["a", "b"]]).2 = some ["a", "b"] ∧
    ["a", "b"] ∉ normalizeRoots [["a"], ["a", "b"]] := by
  exact ⟨lastRoot_designation [["a"], ["a", "b"]] (by decide), by decide⟩

/-- Claim C10: the hidden-entry rule applies to a supplied root itself:
with hidden processing off, a root whose own base name starts with `.` is
pruned at its first visit (directory) or skipped (file), so nothing under
it is ever submitted for hashing. -/
theorem hidden_root_pruned (exts : List String) (cs : Bool) (name : String)
    (children : Forest) (h : startsDot name = true) :
    walkForest false exts cs (.dir name children .nil) = [] ∧
    walkForest false exts cs (.file name .nil) = [] := by
  constructor
  · simp [walkForest, walkerAct, h]
  · simp [walkForest, walkerAct, h]

/-- Witness for C10: a root directory named `.git` yields no hash
submissions at all. -/
theorem hidden_root_pruned_witness :
    walkForest false [] false (.dir ".git" (.file "x.txt" .nil) .nil) = [] :=
  (hidden_root_pruned [] false ".git" (.file "x.txt" .nil) (by decide)).1

/-- Claim C6: hidden-entry exclusion.  With hidden processing off, a
hidden base name means prune for a directory and skip for a file; as a
consequence every path submitted for hashing has no component (from the
walked root down) that starts with `.`. -/
theorem hidden_exclusion (exts : List String) (cs : Bool) :
    (∀ name, startsDot name = true →
      walkerAct false exts cs name true = .prune ∧
      walkerAct false exts cs name false = .next) ∧
    (∀ (f : Forest) (p : Path), p ∈ walkForest false exts cs f →
      ∀ c ∈ p, startsDot c = false) := by
  constructor
  · intro name h
    constructor <;> simp [walkerAct, h]
  · exact walkForest_no_hidden exts cs

/-- Witness for C6: the lone submission of a small tree contains no
hidden components. -/
theorem hidden_exclusion_witness :
    walkerAct false [] false ".git" true = .prune ∧ startsDot "a" = false := by
  have h := hidden_exclusion [] false
  exact ⟨(h.1 ".git" (by decide)).1,
    h.2 (.dir "a" (.file "b.txt" .nil) .nil) ["a", "b.txt"] (by decide) "a" (by decide)⟩

end Fdup
